import Mathlib

/-!
Verification of the adaptive personality-measurement engine (Mini-IPIP6 CAT).

Shallow embedding of the Python sources:
  backend/app/core/mini_ipip6_data.py   (item bank, trait tables)
  backend/app/services/irt_engine.py    (GRM kernel)
  backend/app/services/bayesian_updater.py (grid posterior)
  backend/app/services/dose_algorithm.py   (adaptive controller)
  backend/app/services/scoring_service.py  (classical scorer)
  backend/scripts/monte_carlo_simulation.py (theta_to_likert)

Floating-point numbers are modelled as real numbers; the stability clips
(exponent clip at plus/minus 700, probability clip at 1e-10, likelihood floor
1e-300) are embedded literally.
-/

/-- The six personality traits, in the canonical order of the source's
TRAITS list (mini_ipip6_data.py). -/
inductive Trait where
  | extraversion
  | agreeableness
  | conscientiousness
  | neuroticism
  | openness
  | honesty_humility
deriving DecidableEq, Repr

instance : Fintype Trait :=
  ⟨⟨{Trait.extraversion, Trait.agreeableness, Trait.conscientiousness,
     Trait.neuroticism, Trait.openness, Trait.honesty_humility}, by decide⟩,
   by intro t; cases t <;> decide⟩

/-- The TRAITS list from mini_ipip6_data.py (canonical trait ordering). -/
def TRAITS : List Trait :=
  [Trait.extraversion, Trait.agreeableness, Trait.conscientiousness,
   Trait.neuroticism, Trait.openness, Trait.honesty_humility]

/-- TRAIT_ITEMS from mini_ipip6_data.py: the four item ids of each trait. -/
def TRAIT_ITEMS : Trait → List ℕ
  | Trait.extraversion => [1, 7, 19, 23]
  | Trait.agreeableness => [2, 8, 14, 20]
  | Trait.conscientiousness => [3, 10, 11, 22]
  | Trait.neuroticism => [4, 15, 16, 17]
  | Trait.openness => [5, 9, 13, 21]
  | Trait.honesty_humility => [6, 12, 18, 24]

/-- One Mini-IPIP6 item record (MINI_IPIP6_ITEMS entry).  The localized text
payload is opaque to the engine and omitted. -/
structure IPIPItem where
  trait : Trait
  reverse_scored : Bool
  alpha : ℝ
  beta : List ℝ

/-- The MINI_IPIP6_ITEMS table (Sibley 2012 parameters).  The Python dict
raises KeyError outside 1..24; the claims only use ids 1..24, and the
default branch (never exercised by any theorem below) returns item 1. -/
noncomputable def bankItem : ℕ → IPIPItem
  | 7 => ⟨Trait.extraversion, true, 0.84, [-2.82, -1.67, -0.80, 0.10, 0.86, 1.91]⟩
  | 19 => ⟨Trait.extraversion, true, 1.00, [-2.51, -1.32, -0.49, 0.45, 1.23, 2.44]⟩
  | 23 => ⟨Trait.extraversion, false, 0.92, [-2.25, -1.27, -0.54, 0.24, 0.97, 1.96]⟩
  | 2 => ⟨Trait.agreeableness, false, 1.46, [-3.19, -2.51, -1.86, -1.19, -0.28, 0.99]⟩
  | 8 => ⟨Trait.agreeableness, true, 0.66, [-3.74, -2.51, -1.59, -0.76, 0.22, 1.76]⟩
  | 14 => ⟨Trait.agreeableness, false, 1.12, [-3.15, -2.36, -1.70, -0.92, 0.03, 1.37]⟩
  | 20 => ⟨Trait.agreeableness, true, 0.81, [-3.77, -2.69, -1.94, -1.19, -0.28, 1.25]⟩
  | 3 => ⟨Trait.conscientiousness, false, 0.90, [-3.39, -2.13, -1.18, -0.27, 0.57, 1.64]⟩
  | 10 => ⟨Trait.conscientiousness, false, 0.85, [-3.49, -2.72, -2.02, -1.06, -0.20, 1.12]⟩
  | 11 => ⟨Trait.conscientiousness, true, 0.77, [-4.21, -2.93, -2.05, -1.07, -0.18, 1.38]⟩
  | 22 => ⟨Trait.conscientiousness, true, 0.94, [-2.63, -1.73, -1.17, -0.64, -0.09, 1.11]⟩
  | 4 => ⟨Trait.neuroticism, false, 1.13, [-1.32, -0.23, 0.36, 1.04, 1.72, 2.53]⟩
  | 15 => ⟨Trait.neuroticism, true, 0.77, [-2.24, -0.70, 0.38, 1.48, 2.57, 3.92]⟩
  | 16 => ⟨Trait.neuroticism, false, 0.90, [-2.15, -0.76, 0.05, 0.89, 1.72, 2.80]⟩
  | 17 => ⟨Trait.neuroticism, true, 0.65, [-2.82, -1.01, -0.19, 0.76, 1.80, 3.15]⟩
  | 5 => ⟨Trait.openness, false, 0.54, [-4.22, -2.68, -1.52, -0.21, 0.94, 2.47]⟩
  | 9 => ⟨Trait.openness, true, 1.10, [-2.70, -1.72, -1.00, -0.17, 0.47, 1.61]⟩
  | 13 => ⟨Trait.openness, true, 0.79, [-3.45, -2.35, -1.56, -0.85, -0.11, 1.13]⟩
  | 21 => ⟨Trait.openness, true, 1.24, [-2.57, -1.71, -1.12, -0.29, 0.41, 1.43]⟩
  | 6 => ⟨Trait.honesty_humility, true, 0.91, [-3.43, -2.67, -1.89, -1.10, -0.42, 0.71]⟩
  | 12 => ⟨Trait.honesty_humility, true, 1.17, [-2.32, -1.69, -1.08, -0.33, 0.17, 0.99]⟩
  | 18 => ⟨Trait.honesty_humility, true, 1.47, [-1.92, -1.42, -0.97, -0.52, -0.16, 0.48]⟩
  | 24 => ⟨Trait.honesty_humility, true, 1.16, [-2.08, -1.30, -0.71, -0.12, 0.31, 1.10]⟩
  | _ => ⟨Trait.extraversion, false, 1.07, [-1.85, -1.04, -0.21, 0.89, 1.98, 2.76]⟩

/-- np.clip for scalars: clamp x into the interval from lo to hi. -/
noncomputable def npClip (x lo hi : ℝ) : ℝ := max lo (min x hi)

/-- IRTEngine.cumulative_probability: the GRM cumulative operating
characteristic 1 / (1 + exp(-alpha (theta - beta))), with the exponent
clipped to the interval from -700 to 700. -/
noncomputable def cumulativeProbability (theta alpha beta : ℝ) : ℝ :=
  1 / (1 + Real.exp (npClip (-alpha * (theta - beta)) (-700) 700))

/-- The raw (pre-clip) category probabilities of
IRTEngine.category_probabilities: index 0 is 1 - P*(beta 0), index k in 1..5
is P*(beta (k-1)) - P*(beta k), index 6 is P*(beta 5).  List indexing uses
getD 0; all call sites pass six thresholds. -/
noncomputable def rawCategoryProb (theta alpha : ℝ) (betas : List ℝ) : Fin 7 → ℝ :=
  fun k =>
    if k.val = 0 then 1 - cumulativeProbability theta alpha (betas.getD 0 0)
    else if k.val = 6 then cumulativeProbability theta alpha (betas.getD 5 0)
    else cumulativeProbability theta alpha (betas.getD (k.val - 1) 0) -
      cumulativeProbability theta alpha (betas.getD k.val 0)

/-- The per-category clip probs = np.clip(probs, 1e-10, 1.0) of
IRTEngine.category_probabilities. -/
noncomputable def clippedCategoryProb (theta alpha : ℝ) (betas : List ℝ) : Fin 7 → ℝ :=
  fun k => npClip (rawCategoryProb theta alpha betas k) (1 / 10 ^ 10) 1

/-- IRTEngine.category_probabilities: clipped category probabilities
renormalized to sum to one. -/
noncomputable def categoryProb (theta alpha : ℝ) (betas : List ℝ) : Fin 7 → ℝ :=
  fun k =>
    clippedCategoryProb theta alpha betas k / ∑ j : Fin 7, clippedCategoryProb theta alpha betas j

/-- IRTEngine.likelihood: probs[response - 1].  Python indexes the length-7
array with response - 1; a negative index wraps (probs[-1] is probs[6]),
which the Int.emod below reproduces.  All engine call sites pass a response
in 1..7. -/
noncomputable def likelihood (response : ℤ) (theta alpha : ℝ) (betas : List ℝ) : ℝ :=
  categoryProb theta alpha betas ⟨((response - 1) % 7).toNat, by omega⟩

/-- IRTEngine.log_likelihood: log of the likelihood floored at 1e-300. -/
noncomputable def logLikelihood (response : ℤ) (theta alpha : ℝ) (betas : List ℝ) : ℝ :=
  Real.log (max (likelihood response theta alpha betas) (1 / 10 ^ 300))

/-- IRTEngine.fisher_information: alpha^2 times the sum, over the item's
thresholds, of P*(1 - P*). -/
noncomputable def fisherInformation (theta alpha : ℝ) (betas : List ℝ) : ℝ :=
  alpha ^ 2 *
    betas.foldl
      (fun acc beta =>
        acc + cumulativeProbability theta alpha beta * (1 - cumulativeProbability theta alpha beta))
      0

/-- IRTEngine.item_log_likelihood and the identical inlined code in
BayesianUpdater.compute_posterior: the effective response is 8 - r for a
reverse-scored item, applied exactly once before the likelihood call. -/
noncomputable def itemLogLikelihood (item : IPIPItem) (response : ℤ) (theta : ℝ) : ℝ :=
  let effectiveResponse := if item.reverse_scored then 8 - response else response
  logLikelihood effectiveResponse theta item.alpha item.beta

/-- IRTEngine.item_fisher_information: Fisher information of a bank item. -/
noncomputable def itemFisherInformation (itemNumber : ℕ) (theta : ℝ) : ℝ :=
  fisherInformation theta (bankItem itemNumber).alpha (bankItem itemNumber).beta

/-- IRTEngine.theta_to_likert_scale with the default scale 1..7:
normalized = (theta + 3) / 6, likert = 1 + normalized * 6, clipped to 1..7. -/
noncomputable def thetaToLikertScale (theta : ℝ) : ℝ :=
  npClip (1 + (theta - (-3)) / (3 - (-3)) * (7 - 1)) 1 7

/-- theta_to_likert from backend/scripts/monte_carlo_simulation.py:
max(1, min(7, 4 + theta * 0.75)). -/
noncomputable def mcThetaToLikert (theta : ℝ) : ℝ :=
  max 1 (min 7 (4 + theta * 0.75))

/-- The theta grid of BayesianUpdater (np.linspace(-4, 4, 200)):
point i is -4 + i * 8/199. -/
noncomputable def thetaGrid (i : Fin 200) : ℝ := -4 + (i : ℝ) * (8 / 199)

/-- np.trapz over the theta grid: the trapezoidal sum of f. -/
noncomputable def trapz (f : Fin 200 → ℝ) : ℝ :=
  ∑ i : Fin 199, (f i.castSucc + f i.succ) / 2 * (thetaGrid i.succ - thetaGrid i.castSucc)

/-- scipy norm.pdf with mean 0 and sd 1 (BayesianUpdater.prior_density). -/
noncomputable def priorPdf (theta : ℝ) : ℝ :=
  Real.exp (-(theta ^ 2) / 2) / Real.sqrt (2 * Real.pi)

/-- scipy norm.logpdf with mean 0 and sd 1 (BayesianUpdater.log_prior). -/
noncomputable def logPrior (theta : ℝ) : ℝ :=
  -(theta ^ 2) / 2 - Real.log (Real.sqrt (2 * Real.pi))

/-- The summed log-likelihood loop of BayesianUpdater.compute_posterior.
The Python loop looks each item number up in MINI_IPIP6_ITEMS and applies
the reverse rule; here the caller performs the (pure) bank lookup and the
loop receives the item records. -/
noncomputable def sumLogLik (responses : List (IPIPItem × ℤ)) (theta : ℝ) : ℝ :=
  responses.foldl (fun acc p => acc + itemLogLikelihood p.1 p.2 theta) 0

/-- log_posterior[i] = log_prior + log_lik in compute_posterior. -/
noncomputable def logPosteriorAt (responses : List (IPIPItem × ℤ)) (i : Fin 200) : ℝ :=
  logPrior (thetaGrid i) + sumLogLik responses (thetaGrid i)

/-- log_posterior.max() in compute_posterior. -/
noncomputable def maxLogPosterior (responses : List (IPIPItem × ℤ)) : ℝ :=
  Finset.univ.sup' Finset.univ_nonempty (logPosteriorAt responses)

/-- posterior = np.exp(log_posterior - max) in compute_posterior. -/
noncomputable def unnormalizedPosterior (responses : List (IPIPItem × ℤ)) (i : Fin 200) : ℝ :=
  Real.exp (logPosteriorAt responses i - maxLogPosterior responses)

/-- normalizing_constant = np.trapz(posterior, theta_grid). -/
noncomputable def normalizingConstant (responses : List (IPIPItem × ℤ)) : ℝ :=
  trapz (unnormalizedPosterior responses)

/-- The normalized posterior density of compute_posterior, including the
fallback to the renormalized prior when the normalizing constant is not
positive. -/
noncomputable def posteriorDensity (responses : List (IPIPItem × ℤ)) (i : Fin 200) : ℝ :=
  if 0 < normalizingConstant responses then
    unnormalizedPosterior responses i / normalizingConstant responses
  else
    priorPdf (thetaGrid i) / trapz (fun j => priorPdf (thetaGrid j))

/-- posterior_mean = np.trapz(posterior * theta_grid, theta_grid). -/
noncomputable def posteriorMean (responses : List (IPIPItem × ℤ)) : ℝ :=
  trapz (fun i => posteriorDensity responses i * thetaGrid i)

/-- posterior_var = np.trapz(posterior * (theta_grid - mean)^2, theta_grid). -/
noncomputable def posteriorVar (responses : List (IPIPItem × ℤ)) : ℝ :=
  trapz (fun i => posteriorDensity responses i * (thetaGrid i - posteriorMean responses) ^ 2)

/-- posterior_sd = sqrt(max(posterior_var, 1e-10)). -/
noncomputable def posteriorSd (responses : List (IPIPItem × ℤ)) : ℝ :=
  Real.sqrt (max (posteriorVar responses) (1 / 10 ^ 10))

/-- Bank lookup performed on an id-based response list, as in the loop of
compute_posterior. -/
noncomputable def idResponses (responses : List (ℕ × ℤ)) : List (IPIPItem × ℤ) :=
  responses.map (fun p => (bankItem p.1, p.2))

/-- TraitState from bayesian_updater.py (per-trait estimation state). -/
structure TraitState where
  trait : Trait
  theta_estimate : ℝ
  standard_error : ℝ
  posterior_mean : ℝ
  posterior_sd : ℝ
  responses : List (ℕ × ℤ)
  items_used : List ℕ
  total_information : ℝ

/-- BayesianUpdater.update_trait_state: append the response, recompute the
posterior, refresh the estimates, and recompute total information at the
new posterior mean. -/
noncomputable def updateTraitState (ts : TraitState) (itemNumber : ℕ) (response : ℤ) :
    TraitState :=
  let responses := ts.responses ++ [(itemNumber, response)]
  let itemsUsed := ts.items_used ++ [itemNumber]
  let rsI := idResponses responses
  { ts with
    responses := responses
    items_used := itemsUsed
    theta_estimate := posteriorMean rsI
    standard_error := posteriorSd rsI
    posterior_mean := posteriorMean rsI
    posterior_sd := posteriorSd rsI
    total_information :=
      (itemsUsed.map (fun m => itemFisherInformation m (posteriorMean rsI))).sum }

/-- ItemHistory from dose_algorithm.py (audit record of one administration). -/
structure ItemHistory where
  item_number : ℕ
  trait : Trait
  response : ℤ
  theta_before : ℝ
  theta_after : ℝ
  se_before : ℝ
  se_after : ℝ
  fisher_information : ℝ
  presentation_order : ℕ

/-- DOSESessionState from dose_algorithm.py.  The unused
current_trait_index field is omitted. -/
structure DOSESessionState where
  trait_states : Trait → TraitState
  administered_items : List ItemHistory
  traits_completed : Trait → Bool
  total_items : ℕ

/-- DOSEAlgorithm.initialize_session together with
BayesianUpdater.initialize_trait_states (N(0,1) prior on every trait). -/
noncomputable def initSession : DOSESessionState where
  trait_states := fun t =>
    { trait := t, theta_estimate := 0, standard_error := 1, posterior_mean := 0
      posterior_sd := 1, responses := [], items_used := [], total_information := 0 }
  administered_items := []
  traits_completed := fun _ => false
  total_items := 0

/-- The incomplete-trait list of DOSEAlgorithm.get_next_action:
[t for t in TRAITS if not state.traits_completed[t]]. -/
def incompleteTraits (s : DOSESessionState) : List Trait :=
  TRAITS.filter (fun t => !(s.traits_completed t))

/-- The available-items list of DOSEAlgorithm.select_next_item: the trait's
items not yet administered. -/
def availableItems (s : DOSESessionState) (t : Trait) : List ℕ :=
  (TRAIT_ITEMS t).filter (fun n => !((s.trait_states t).items_used.contains n))

/-- DOSEAlgorithm.select_next_item: among the available items, Python's
max(item_info, key=item_info.get) returns the first key attaining the
maximum Fisher information at the trait's current theta estimate; the fold
below replaces the current best only on a strictly larger value. -/
noncomputable def selectNextItem (s : DOSESessionState) (t : Trait) : Option ℕ :=
  let theta := (s.trait_states t).theta_estimate
  match availableItems s t with
  | [] => none
  | a :: rest =>
      some (rest.foldl
        (fun best n =>
          if itemFisherInformation best theta < itemFisherInformation n theta then n else best)
        a)

/-- The round-robin trait choice of DOSEAlgorithm.get_next_action:
incomplete_traits[state.total_items % len(incomplete_traits)].  Python
would raise on an empty list; get_next_action only evaluates this when some
trait is incomplete, and the getD default is never reached there. -/
def nextTraitOf (s : DOSESessionState) : Trait :=
  (incompleteTraits s).getD (s.total_items % (incompleteTraits s).length) Trait.extraversion

/-- DOSEAlgorithm.process_response: update the item trait's posterior,
append the audit record, bump the counter, and mark the trait completed
when the stopping rule (SE below threshold, or max items used) holds. -/
noncomputable def processResponse (seThreshold : ℝ) (maxItemsPerTrait : ℕ)
    (s : DOSESessionState) (itemNumber : ℕ) (response : ℤ) : DOSESessionState :=
  let t := (bankItem itemNumber).trait
  let ts := s.trait_states t
  let thetaBefore := ts.theta_estimate
  let seBefore := ts.standard_error
  let fisherInfo := itemFisherInformation itemNumber thetaBefore
  let ts' := updateTraitState ts itemNumber response
  let hist : ItemHistory :=
    { item_number := itemNumber, trait := t, response := response
      theta_before := thetaBefore, theta_after := ts'.theta_estimate
      se_before := seBefore, se_after := ts'.standard_error
      fisher_information := fisherInfo, presentation_order := s.total_items + 1 }
  { trait_states := Function.update s.trait_states t ts'
    administered_items := s.administered_items ++ [hist]
    traits_completed :=
      if ts'.standard_error < seThreshold ∨ maxItemsPerTrait ≤ ts'.items_used.length then
        Function.update s.traits_completed t true
      else s.traits_completed
    total_items := s.total_items + 1 }

/-- The decision-relevant part of the dictionary returned by
DOSEAlgorithm.get_next_action; the remaining payload entries
(item text, estimates, progress) are pure projections of the state. -/
inductive DOSEActionResult where
  | complete
  | presentItem (itemNumber : ℕ) (trait : Trait)
deriving DecidableEq, Repr

lemma mem_TRAITS (t : Trait) : t ∈ TRAITS := by cases t <;> decide

lemma incompleteTraits_ne_nil {s : DOSESessionState}
    (h : ¬ ∀ t, s.traits_completed t = true) : incompleteTraits s ≠ [] := by
  push_neg at h
  obtain ⟨t, ht⟩ := h
  have hmem : t ∈ incompleteTraits s := by
    simp only [incompleteTraits, List.mem_filter, Bool.not_eq_true']
    exact ⟨mem_TRAITS t, by simpa using ht⟩
  exact List.ne_nil_of_mem hmem

lemma nextTraitOf_mem {s : DOSESessionState}
    (h : ¬ ∀ t, s.traits_completed t = true) : nextTraitOf s ∈ incompleteTraits s := by
  have hne := incompleteTraits_ne_nil h
  have hlen : 0 < (incompleteTraits s).length := List.length_pos.mpr hne
  have hidx : s.total_items % (incompleteTraits s).length < (incompleteTraits s).length :=
    Nat.mod_lt _ hlen
  rw [nextTraitOf, List.getD_eq_getElem _ _ hidx]
  exact List.getElem_mem hidx

lemma nextTraitOf_incomplete {s : DOSESessionState}
    (h : ¬ ∀ t, s.traits_completed t = true) : s.traits_completed (nextTraitOf s) = false := by
  have hmem := nextTraitOf_mem h
  simp only [incompleteTraits, List.mem_filter, Bool.not_eq_true'] at hmem
  exact hmem.2

lemma filter_update_length_lt {α : Type} [DecidableEq α] {l : List α} {f : α → Bool} {t : α}
    (hmem : t ∈ l) (hf : f t = false) :
    (l.filter (fun x => !(Function.update f t true x))).length <
      (l.filter (fun x => !(f x))).length := by
  induction l with
  | nil => cases hmem
  | cons a l ih =>
      by_cases hat : a = t
      · subst hat
        have h1 : (fun x => !(Function.update f a true x)) ≤ (fun x => !(f x)) := by
          intro x
          by_cases hx : x = a
          · subst hx; simp [Function.update_same, hf]
          · simp [Function.update_noteq hx]
        have hsub := List.monotone_filter_right l h1
        have hlen := hsub.length_le
        have hL : (a :: l).filter (fun x => !(Function.update f a true x)) =
            l.filter (fun x => !(Function.update f a true x)) := by
          apply List.filter_cons_of_neg
          simp [Function.update_same]
        have hR : (a :: l).filter (fun x => !(f x)) = a :: l.filter (fun x => !(f x)) := by
          apply List.filter_cons_of_pos
          simp [hf]
        rw [hL, hR]
        simp only [List.length_cons]
        omega
      · have hmem' : t ∈ l := by
          rcases List.mem_cons.mp hmem with h' | h'
          · exact absurd h'.symm hat
          · exact h'
        have := ih hmem'
        simp only [List.filter_cons, Function.update_noteq hat]
        by_cases ha : f a <;> simp [ha] <;> omega

/-- DOSEAlgorithm.get_next_action, returning the action together with the
(possibly mutated) session state.  When every trait is completed it
returns the completion action; otherwise it picks the round-robin trait,
and if that trait has no unadministered item left it marks the trait
completed and recurses, exactly as the Python code does. -/
noncomputable def getNextAction (seThreshold : ℝ) (maxItemsPerTrait : ℕ)
    (s : DOSESessionState) : DOSEActionResult × DOSESessionState :=
  if h : ∀ t, s.traits_completed t = true then
    (DOSEActionResult.complete, s)
  else
    match selectNextItem s (nextTraitOf s) with
    | none =>
        getNextAction seThreshold maxItemsPerTrait
          { s with traits_completed := Function.update s.traits_completed (nextTraitOf s) true }
    | some m => (DOSEActionResult.presentItem m (nextTraitOf s), s)
termination_by (incompleteTraits s).length
decreasing_by
  simp only [incompleteTraits]
  exact filter_update_length_lt (mem_TRAITS _) (nextTraitOf_incomplete h)

/-- reverse_score from mini_ipip6_data.py. -/
def reverseScore (response : ℤ) : ℤ := 8 - response

/-- score_response from mini_ipip6_data.py: apply the reverse correction
when the bank marks the item reverse-scored. -/
noncomputable def scoreResponse (itemNumber : ℕ) (response : ℤ) : ℤ :=
  if (bankItem itemNumber).reverse_scored then reverseScore response else response

/-- calculate_trait_score from scoring_service.py: average the scored
responses of the trait's items that are present in the response map
(association list); with no responses it returns (0.0, 0). -/
noncomputable def calculateTraitScore (responses : List (ℕ × ℤ)) (t : Trait) : ℚ × ℕ :=
  let scores := (TRAIT_ITEMS t).filterMap
    (fun n => (responses.lookup n).map (fun r => scoreResponse n r))
  if scores.isEmpty then (0, 0)
  else ((scores.sum : ℚ) / scores.length, scores.length)

/-- One entry of the dictionary built by calculate_all_trait_scores. -/
structure TraitScoreEntry where
  score : ℚ
  num_items : ℕ
  complete : Bool
deriving DecidableEq, Repr

/-- calculate_all_trait_scores from scoring_service.py: per-trait score,
item count, and the complete flag num_items == 4. -/
noncomputable def calculateAllTraitScores (responses : List (ℕ × ℤ)) :
    Trait → TraitScoreEntry := fun t =>
  let p := calculateTraitScore responses t
  { score := p.1, num_items := p.2, complete := p.2 == 4 }

/-- Claim C6 -- Fisher information formula: for every theta, discrimination
alpha, and six thresholds, the item information computed by
IRTEngine.fisher_information (the quantity DOSEAlgorithm.select_next_item
maximizes through item_fisher_information) equals alpha^2 times the sum
over the six thresholds of P(beta_j) (1 - P(beta_j)), where P(beta) is
the logistic 1 / (1 + exp(-alpha (theta - beta))) with the exponent
saturated at plus/minus 700. -/
theorem fisher_information_formula (theta alpha b0 b1 b2 b3 b4 b5 : ℝ) :
    fisherInformation theta alpha [b0, b1, b2, b3, b4, b5] =
      alpha ^ 2 * ∑ j : Fin 6,
        (1 / (1 + Real.exp (max (-700) (min (-alpha * (theta - ![b0, b1, b2, b3, b4, b5] j)) 700)))) *
        (1 - 1 / (1 + Real.exp (max (-700) (min (-alpha * (theta - ![b0, b1, b2, b3, b4, b5] j)) 700)))) := by
  have e0 : ![b0, b1, b2, b3, b4, b5] 0 = b0 := rfl
  have e1 : ![b0, b1, b2, b3, b4, b5] 1 = b1 := rfl
  have e2 : ![b0, b1, b2, b3, b4, b5] 2 = b2 := rfl
  have e3 : ![b0, b1, b2, b3, b4, b5] 3 = b3 := rfl
  have e4 : ![b0, b1, b2, b3, b4, b5] 4 = b4 := rfl
  have e5 : ![b0, b1, b2, b3, b4, b5] 5 = b5 := rfl
  simp only [fisherInformation, List.foldl, cumulativeProbability, npClip, Fin.sum_univ_six,
    e0, e1, e2, e3, e4, e5]
  ring

/-- Claim C5 counterexample: at theta = 2 the production engine's
theta_to_likert_scale yields 6, not clip(4 + 0.75 * 2, 1, 7) = 5.5 as the
claim asserts, and the simulator's theta_to_likert yields 5.5, so the two
conventions disagree. -/
theorem theta_to_likert_claim_false :
    thetaToLikertScale 2 = 6 ∧ mcThetaToLikert 2 = 5.5 ∧
      thetaToLikertScale 2 ≠ npClip (4 + 0.75 * 2) 1 7 := by
  unfold thetaToLikertScale mcThetaToLikert npClip
  norm_num

/-- Claim C5 amended: the production engine (IRTEngine.theta_to_likert_scale,
used by get_final_results) maps theta by clip(4 + theta, 1, 7) -- the linear
map of the interval -3..3 onto 1..7, clipped -- while the Monte-Carlo
simulator's theta_to_likert uses clip(4 + 0.75 theta, 1, 7); the program does
not use one single convention. -/
theorem theta_to_likert_conventions (theta : ℝ) :
    thetaToLikertScale theta = npClip (4 + theta) 1 7 ∧
      mcThetaToLikert theta = max 1 (min 7 (4 + theta * 0.75)) ∧
      thetaToLikertScale (-3) = 1 ∧ thetaToLikertScale 3 = 7 := by
  refine ⟨?_, rfl, ?_, ?_⟩
  · unfold thetaToLikertScale npClip
    have h : 1 + (theta - -3) / (3 - -3) * (7 - 1) = 4 + theta := by ring
    rw [h]
  · unfold thetaToLikertScale npClip; norm_num
  · unfold thetaToLikertScale npClip; norm_num

/-- Claim C7 -- category-probability clipping and normalization: for every
theta, alpha and strictly increasing thresholds, every category probability
returned by IRTEngine.category_probabilities is strictly positive, the seven
returned probabilities sum to one, and for every response in 1..7 the
likelihood passed to the log is above the 1e-300 floor, so the downstream
log-likelihood is the log of a strictly positive quantity (never log 0). -/
theorem category_probabilities_clipped_normalized (theta alpha b0 b1 b2 b3 b4 b5 : ℝ)
    (h01 : b0 < b1) (h12 : b1 < b2) (h23 : b2 < b3) (h34 : b3 < b4) (h45 : b4 < b5) :
    (∀ k : Fin 7, 0 < categoryProb theta alpha [b0, b1, b2, b3, b4, b5] k) ∧
      (∑ k : Fin 7, categoryProb theta alpha [b0, b1, b2, b3, b4, b5] k = 1) ∧
      (∀ r : ℤ, 1 ≤ r → r ≤ 7 →
        (1 : ℝ) / 10 ^ 300 < likelihood r theta alpha [b0, b1, b2, b3, b4, b5]) := by
  set B := [b0, b1, b2, b3, b4, b5] with hB
  have heps : (0 : ℝ) < 1 / 10 ^ 10 := by norm_num
  have hlo : ∀ k : Fin 7, 1 / 10 ^ 10 ≤ clippedCategoryProb theta alpha B k := by
    intro k; exact le_max_left _ _
  have hhi : ∀ k : Fin 7, clippedCategoryProb theta alpha B k ≤ 1 := by
    intro k
    apply max_le
    · norm_num
    · exact min_le_right _ _
  have hSpos : 0 < ∑ j : Fin 7, clippedCategoryProb theta alpha B j := by
    apply Finset.sum_pos
    · intro j _
      exact lt_of_lt_of_le heps (hlo j)
    · exact Finset.univ_nonempty
  have hSle : ∑ j : Fin 7, clippedCategoryProb theta alpha B j ≤ 7 := by
    calc ∑ j : Fin 7, clippedCategoryProb theta alpha B j
        ≤ ∑ _j : Fin 7, (1 : ℝ) := Finset.sum_le_sum (fun j _ => hhi j)
      _ = 7 := by simp
  have hpos : ∀ k : Fin 7, 0 < categoryProb theta alpha B k := by
    intro k
    exact div_pos (lt_of_lt_of_le heps (hlo k)) hSpos
  refine ⟨hpos, ?_, ?_⟩
  · unfold categoryProb
    rw [← Finset.sum_div]
    exact div_self (ne_of_gt hSpos)
  · intro r h1 h7
    have hcat : (1 : ℝ) / 10 ^ 10 / 7 ≤ categoryProb theta alpha B ⟨((r - 1) % 7).toNat, by omega⟩ := by
      unfold categoryProb
      exact div_le_div (le_of_lt (lt_of_lt_of_le heps (hlo _))) (hlo _) hSpos hSle
    calc (1 : ℝ) / 10 ^ 300 < 1 / 10 ^ 10 / 7 := by norm_num
      _ ≤ likelihood r theta alpha B := hcat

lemma itemLogLikelihood_reverse_flag (t : Trait) (alpha : ℝ) (B : List ℝ) (r : ℤ) (theta : ℝ) :
    itemLogLikelihood ⟨t, true, alpha, B⟩ r theta =
      itemLogLikelihood ⟨t, false, alpha, B⟩ (8 - r) theta := by
  simp [itemLogLikelihood]

lemma sumLogLik_append_reverse (prior : List (IPIPItem × ℤ)) (t : Trait) (alpha : ℝ)
    (B : List ℝ) (r : ℤ) (theta : ℝ) :
    sumLogLik (prior ++ [(⟨t, true, alpha, B⟩, r)]) theta =
      sumLogLik (prior ++ [(⟨t, false, alpha, B⟩, 8 - r)]) theta := by
  unfold sumLogLik
  rw [List.foldl_append, List.foldl_append]
  simp only [List.foldl]
  rw [itemLogLikelihood_reverse_flag]

lemma logPosteriorAt_reverse (prior : List (IPIPItem × ℤ)) (t : Trait) (alpha : ℝ)
    (B : List ℝ) (r : ℤ) :
    logPosteriorAt (prior ++ [(⟨t, true, alpha, B⟩, r)]) =
      logPosteriorAt (prior ++ [(⟨t, false, alpha, B⟩, 8 - r)]) := by
  funext i
  unfold logPosteriorAt
  rw [sumLogLik_append_reverse]

lemma posteriorDensity_reverse (prior : List (IPIPItem × ℤ)) (t : Trait) (alpha : ℝ)
    (B : List ℝ) (r : ℤ) :
    posteriorDensity (prior ++ [(⟨t, true, alpha, B⟩, r)]) =
      posteriorDensity (prior ++ [(⟨t, false, alpha, B⟩, 8 - r)]) := by
  have h := logPosteriorAt_reverse prior t alpha B r
  funext i
  unfold posteriorDensity normalizingConstant unnormalizedPosterior maxLogPosterior
  rw [h]

lemma posteriorMean_reverse (prior : List (IPIPItem × ℤ)) (t : Trait) (alpha : ℝ)
    (B : List ℝ) (r : ℤ) :
    posteriorMean (prior ++ [(⟨t, true, alpha, B⟩, r)]) =
      posteriorMean (prior ++ [(⟨t, false, alpha, B⟩, 8 - r)]) := by
  unfold posteriorMean
  rw [posteriorDensity_reverse]

lemma posteriorSd_reverse (prior : List (IPIPItem × ℤ)) (t : Trait) (alpha : ℝ)
    (B : List ℝ) (r : ℤ) :
    posteriorSd (prior ++ [(⟨t, true, alpha, B⟩, r)]) =
      posteriorSd (prior ++ [(⟨t, false, alpha, B⟩, 8 - r)]) := by
  unfold posteriorSd posteriorVar
  rw [posteriorDensity_reverse, posteriorMean_reverse]

/-- Claim C1 -- reverse-key symmetry: for every item (any trait, any
parameters), every response r in 1..7, and every prior response list, the
posterior density, posterior mean and posterior SD computed by
compute_posterior after appending the item with reverse_scored = true and
response r agree (within 1e-9; in fact exactly) with those computed after
appending the same item with reverse_scored = false and response 8 - r:
the transformation r to 8 - r is applied exactly once per likelihood
evaluation. -/
theorem reverse_key_symmetry (t : Trait) (alpha : ℝ) (B : List ℝ) (r : ℤ)
    (h1 : 1 ≤ r) (h7 : r ≤ 7) (prior : List (IPIPItem × ℤ)) :
    (∀ i : Fin 200,
      |posteriorDensity (prior ++ [(⟨t, true, alpha, B⟩, r)]) i -
        posteriorDensity (prior ++ [(⟨t, false, alpha, B⟩, 8 - r)]) i| ≤ 1 / 10 ^ 9) ∧
    |posteriorMean (prior ++ [(⟨t, true, alpha, B⟩, r)]) -
      posteriorMean (prior ++ [(⟨t, false, alpha, B⟩, 8 - r)])| ≤ 1 / 10 ^ 9 ∧
    |posteriorSd (prior ++ [(⟨t, true, alpha, B⟩, r)]) -
      posteriorSd (prior ++ [(⟨t, false, alpha, B⟩, 8 - r)])| ≤ 1 / 10 ^ 9 := by
  refine ⟨fun i => ?_, ?_, ?_⟩
  · rw [posteriorDensity_reverse]
    simp
  · rw [posteriorMean_reverse]
    simp
  · rw [posteriorSd_reverse]
    simp

/-- Witness for the reverse-key symmetry theorem at a concrete item and
response. -/
theorem reverse_key_symmetry_witness :
    |posteriorMean ([] ++ [(⟨Trait.extraversion, true, 1, [0, 0, 0, 0, 0, 0]⟩, (3 : ℤ))]) -
      posteriorMean ([] ++ [(⟨Trait.extraversion, false, 1, [0, 0, 0, 0, 0, 0]⟩, (8 - 3 : ℤ))])| ≤
      1 / 10 ^ 9 :=
  (reverse_key_symmetry Trait.extraversion 1 [0, 0, 0, 0, 0, 0] 3 (by norm_num) (by norm_num)
    []).2.1

lemma gridStep (i : Fin 199) : thetaGrid i.succ - thetaGrid i.castSucc = 8 / 199 := by
  unfold thetaGrid
  rw [Fin.val_succ, Fin.coe_castSucc]
  push_cast
  ring

lemma thetaGrid_abs_le (i : Fin 200) : |thetaGrid i| ≤ 4 := by
  unfold thetaGrid
  have h0 : (0 : ℝ) ≤ (i : ℝ) := Nat.cast_nonneg _
  have h199 : (i : ℝ) ≤ 199 := by
    have hi : i.val ≤ 199 := Nat.lt_succ_iff.mp i.isLt
    exact_mod_cast hi
  rw [abs_le]
  constructor <;> nlinarith

lemma trapz_nonneg {f : Fin 200 → ℝ} (hf : ∀ i, 0 ≤ f i) : 0 ≤ trapz f := by
  apply Finset.sum_nonneg
  intro i _
  rw [gridStep]
  have := hf i.castSucc
  have := hf i.succ
  positivity

lemma trapz_pos {f : Fin 200 → ℝ} (hf : ∀ i, 0 < f i) : 0 < trapz f := by
  apply Finset.sum_pos
  · intro i _
    rw [gridStep]
    have := hf i.castSucc
    have := hf i.succ
    positivity
  · exact Finset.univ_nonempty

lemma trapz_mono {f g : Fin 200 → ℝ} (h : ∀ i, f i ≤ g i) : trapz f ≤ trapz g := by
  apply Finset.sum_le_sum
  intro i _
  rw [gridStep]
  have h1 := h i.castSucc
  have h2 := h i.succ
  have hstep : (0 : ℝ) ≤ 8 / 199 := by norm_num
  apply mul_le_mul_of_nonneg_right _ hstep
  linarith

lemma trapz_div (f : Fin 200 → ℝ) (c : ℝ) : trapz (fun i => f i / c) = trapz f / c := by
  unfold trapz
  rw [Finset.sum_div]
  apply Finset.sum_congr rfl
  intro i _
  ring

lemma trapz_mul_const (f : Fin 200 → ℝ) (c : ℝ) :
    trapz (fun i => f i * c) = trapz f * c := by
  unfold trapz
  rw [Finset.sum_mul]
  apply Finset.sum_congr rfl
  intro i _
  ring

lemma trapz_abs_le (f : Fin 200 → ℝ) : |trapz f| ≤ trapz (fun i => |f i|) := by
  calc |trapz f| ≤ ∑ i : Fin 199,
        |(f i.castSucc + f i.succ) / 2 * (thetaGrid i.succ - thetaGrid i.castSucc)| :=
      Finset.abs_sum_le_sum_abs _ _
    _ ≤ trapz (fun i => |f i|) := by
      apply Finset.sum_le_sum
      intro i _
      rw [gridStep, abs_mul]
      have hstep : |(8 : ℝ) / 199| = 8 / 199 := by norm_num
      rw [hstep]
      apply mul_le_mul_of_nonneg_right _ (by norm_num : (0 : ℝ) ≤ 8 / 199)
      calc |(f i.castSucc + f i.succ) / 2| ≤ (|f i.castSucc| + |f i.succ|) / 2 := by
            rw [abs_div]
            have := abs_add (f i.castSucc) (f i.succ)
            have h2 : |(2 : ℝ)| = 2 := by norm_num
            rw [h2]
            linarith
        _ = (|f i.castSucc| + |f i.succ|) / 2 := rfl

lemma priorPdf_pos (theta : ℝ) : 0 < priorPdf theta := by
  unfold priorPdf
  apply div_pos (Real.exp_pos _)
  apply Real.sqrt_pos.mpr
  positivity

lemma posteriorDensity_nonneg (rs : List (IPIPItem × ℤ)) (i : Fin 200) :
    0 ≤ posteriorDensity rs i := by
  unfold posteriorDensity
  by_cases h : 0 < normalizingConstant rs
  · rw [if_pos h]
    exact le_of_lt (div_pos (Real.exp_pos _) h)
  · rw [if_neg h]
    exact le_of_lt (div_pos (priorPdf_pos _) (trapz_pos fun j => priorPdf_pos _))

lemma trapz_posteriorDensity (rs : List (IPIPItem × ℤ)) :
    trapz (posteriorDensity rs) = 1 := by
  unfold posteriorDensity
  by_cases h : 0 < normalizingConstant rs
  · simp only [if_pos h]
    rw [trapz_div]
    exact div_self (ne_of_gt h)
  · simp only [if_neg h]
    rw [trapz_div]
    exact div_self (ne_of_gt (trapz_pos fun j => priorPdf_pos _))

lemma posteriorMean_abs_le (rs : List (IPIPItem × ℤ)) : |posteriorMean rs| ≤ 4 := by
  unfold posteriorMean
  calc |trapz fun i => posteriorDensity rs i * thetaGrid i|
      ≤ trapz (fun i => |posteriorDensity rs i * thetaGrid i|) := trapz_abs_le _
    _ ≤ trapz (fun i => posteriorDensity rs i * 4) := by
        apply trapz_mono
        intro i
        rw [abs_mul, abs_of_nonneg (posteriorDensity_nonneg rs i)]
        exact mul_le_mul_of_nonneg_left (thetaGrid_abs_le i) (posteriorDensity_nonneg rs i)
    _ = trapz (posteriorDensity rs) * 4 := trapz_mul_const _ _
    _ = 4 := by rw [trapz_posteriorDensity]; ring

lemma posteriorVar_le (rs : List (IPIPItem × ℤ)) : posteriorVar rs ≤ 64 := by
  unfold posteriorVar
  calc trapz (fun i => posteriorDensity rs i * (thetaGrid i - posteriorMean rs) ^ 2)
      ≤ trapz (fun i => posteriorDensity rs i * 64) := by
        apply trapz_mono
        intro i
        apply mul_le_mul_of_nonneg_left _ (posteriorDensity_nonneg rs i)
        have h1 := abs_le.mp (thetaGrid_abs_le i)
        have h2 := abs_le.mp (posteriorMean_abs_le rs)
        have : (thetaGrid i - posteriorMean rs) ^ 2 ≤ 8 ^ 2 := by
          apply sq_le_sq' <;> linarith
        linarith [this]
    _ = trapz (posteriorDensity rs) * 64 := trapz_mul_const _ _
    _ = 64 := by rw [trapz_posteriorDensity]; ring

lemma posteriorSd_le_eight (rs : List (IPIPItem × ℤ)) : posteriorSd rs ≤ 8 := by
  unfold posteriorSd
  have h : max (posteriorVar rs) (1 / 10 ^ 10) ≤ 64 :=
    max_le (posteriorVar_le rs) (by norm_num)
  calc Real.sqrt (max (posteriorVar rs) (1 / 10 ^ 10)) ≤ Real.sqrt 64 := Real.sqrt_le_sqrt h
    _ = 8 := by
      rw [show (64 : ℝ) = 8 ^ 2 by norm_num, Real.sqrt_sq (by norm_num : (0 : ℝ) ≤ 8)]

lemma updateTraitState_se_eq_sd (ts : TraitState) (n : ℕ) (r : ℤ) :
    (updateTraitState ts n r).standard_error = (updateTraitState ts n r).posterior_sd := rfl

lemma updateTraitState_theta_eq_mean (ts : TraitState) (n : ℕ) (r : ℤ) :
    (updateTraitState ts n r).theta_estimate = (updateTraitState ts n r).posterior_mean := rfl

lemma incompleteTraits_nil_all_completed {s : DOSESessionState}
    (h : incompleteTraits s = []) : ∀ t, s.traits_completed t = true := by
  intro t
  by_contra hfalse
  have hmem : t ∈ incompleteTraits s := by
    simp only [incompleteTraits, List.mem_filter, Bool.not_eq_true']
    exact ⟨mem_TRAITS t, by simpa using hfalse⟩
  rw [h] at hmem
  cases hmem

lemma getNextAction_preserves_completed (thr : ℝ) (maxI : ℕ) :
    ∀ (N : ℕ) (s : DOSESessionState), (incompleteTraits s).length ≤ N →
      ∀ t, s.traits_completed t = true →
        ((getNextAction thr maxI s).2).traits_completed t = true := by
  intro N
  induction N with
  | zero =>
      intro s hlen t ht
      have hnil : incompleteTraits s = [] := List.eq_nil_of_length_eq_zero (Nat.le_zero.mp hlen)
      rw [getNextAction, dif_pos (incompleteTraits_nil_all_completed hnil)]
      exact ht
  | succ N ih =>
      intro s hlen t ht
      rw [getNextAction]
      by_cases hall : ∀ t, s.traits_completed t = true
      · rw [dif_pos hall]
        exact ht
      · rw [dif_neg hall]
        rcases hsel : selectNextItem s (nextTraitOf s) with _ | m
        · have hlt : (incompleteTraits
              { s with traits_completed :=
                  Function.update s.traits_completed (nextTraitOf s) true }).length <
                (incompleteTraits s).length := by
            simp only [incompleteTraits]
            exact filter_update_length_lt (mem_TRAITS _) (nextTraitOf_incomplete hall)
          apply ih _ (by omega)
          simp only [Function.update_apply]
          split
          · rfl
          · exact ht
        · exact ht

/-- Claim C2 -- stopping correctness: after process_response updates the
responded item's trait, that trait is marked completed precisely when the
new posterior SD is strictly below the SE threshold or the items-used count
reached the per-trait maximum (assuming it was not already completed); a
completed flag is never reset by process_response, and get_next_action can
only add completed flags, never remove them. -/
theorem stopping_rule_correct (thr : ℝ) (maxI : ℕ) (s : DOSESessionState) (n : ℕ) (r : ℤ)
    (h : s.traits_completed (bankItem n).trait = false) :
    (((processResponse thr maxI s n r).traits_completed (bankItem n).trait = true) ↔
      (((processResponse thr maxI s n r).trait_states (bankItem n).trait).posterior_sd < thr ∨
        maxI ≤
          ((processResponse thr maxI s n r).trait_states (bankItem n).trait).items_used.length)) ∧
    (∀ t, s.traits_completed t = true →
      (processResponse thr maxI s n r).traits_completed t = true) ∧
    (∀ s₂ : DOSESessionState, ∀ t, s₂.traits_completed t = true →
      ((getNextAction thr maxI s₂).2).traits_completed t = true) := by
  refine ⟨?_, ?_, ?_⟩
  · simp only [processResponse, Function.update_same]
    by_cases hc : (updateTraitState (s.trait_states (bankItem n).trait) n r).standard_error < thr ∨
        maxI ≤ (updateTraitState (s.trait_states (bankItem n).trait) n r).items_used.length
    · rw [if_pos hc]
      simp only [Function.update_same]
      exact iff_of_true trivial hc
    · rw [if_neg hc, h]
      simp only [Bool.false_eq_true, false_iff]
      exact hc
  · intro t ht
    simp only [processResponse]
    split
    · simp only [Function.update_apply]
      split
      · rfl
      · exact ht
    · exact ht
  · intro s₂ t ht
    exact getNextAction_preserves_completed thr maxI (incompleteTraits s₂).length s₂ le_rfl t ht

/-- Witness for the stopping-rule theorem: concrete instance at the fresh
session, item 1, response 4, threshold 1. -/
theorem stopping_rule_correct_witness :
    ((processResponse 1 4 initSession 1 4).traits_completed (bankItem 1).trait = true) ↔
      (((processResponse 1 4 initSession 1 4).trait_states (bankItem 1).trait).posterior_sd < 1 ∨
        4 ≤ ((processResponse 1 4 initSession 1 4).trait_states
          (bankItem 1).trait).items_used.length) :=
  (stopping_rule_correct 1 4 initSession 1 4 rfl).1

/-- The session state after one process_response (item 1, response 4) with
SE threshold 10 and max 4 items per trait, starting from a fresh session
(scenario S1 of the spec). -/
noncomputable def s1Session : DOSESessionState := processResponse 10 4 initSession 1 4

lemma updateTraitState_sd_eq (ts : TraitState) (n : ℕ) (r : ℤ) :
    (updateTraitState ts n r).standard_error =
      posteriorSd (idResponses (ts.responses ++ [(n, r)])) := rfl

lemma s1_update_sd_lt_ten :
    (updateTraitState (initSession.trait_states (bankItem 1).trait) 1 4).standard_error < 10 := by
  rw [updateTraitState_sd_eq]
  exact lt_of_le_of_lt (posteriorSd_le_eight _) (by norm_num)

lemma bankItem_one_trait : (bankItem 1).trait = Trait.extraversion := rfl

lemma s1Session_completed_ext : s1Session.traits_completed Trait.extraversion = true := by
  simp only [s1Session, processResponse]
  rw [if_pos (Or.inl s1_update_sd_lt_ten)]
  rw [bankItem_one_trait]
  exact Function.update_same _ _ _

lemma s1Session_untouched (t : Trait) (h : t ≠ Trait.extraversion) :
    s1Session.traits_completed t = false ∧ (s1Session.trait_states t).items_used = [] := by
  constructor
  · simp only [s1Session, processResponse]
    rw [if_pos (Or.inl s1_update_sd_lt_ten)]
    rw [bankItem_one_trait]
    rw [Function.update_noteq h]
    rfl
  · show (Function.update initSession.trait_states (bankItem 1).trait _ t).items_used = []
    rw [bankItem_one_trait, Function.update_noteq h]
    rfl

/-- Claim C4 counterexample (scenario S1): with SE threshold 10, after a
fresh session processes exactly one response (item 1, response 4), only the
responded trait (extraversion) is completed; agreeableness is not, so it is
false that every one of the six traits is completed. -/
theorem scenario_s1_claim_false :
    s1Session.total_items = 1 ∧
      s1Session.traits_completed Trait.extraversion = true ∧
      s1Session.traits_completed Trait.agreeableness = false := by
  refine ⟨rfl, s1Session_completed_ext, ?_⟩
  exact (s1Session_untouched Trait.agreeableness (by decide)).1

/-- Claim C4 amended (scenario S1 as the code actually behaves): with SE
threshold 10.0, the first next_action on a fresh session still returns
PresentItem (for extraversion, the first round-robin trait), and after
exactly one process_response (item 1, response 4) items_administered is 1
and the responded trait is completed (its posterior SD is at most 8, below
the threshold); but the stopping rule is evaluated only for the responded
trait, so the other five traits remain incomplete, each with no items
administered, instead of being completed as the claim asserts. -/
theorem scenario_s1_amended :
    (∃ m : ℕ, getNextAction 10 4 initSession =
      (DOSEActionResult.presentItem m Trait.extraversion, initSession)) ∧
    s1Session.total_items = 1 ∧
    s1Session.traits_completed Trait.extraversion = true ∧
    (s1Session.traits_completed Trait.agreeableness = false ∧
      (s1Session.trait_states Trait.agreeableness).items_used = []) ∧
    (s1Session.traits_completed Trait.conscientiousness = false ∧
      (s1Session.trait_states Trait.conscientiousness).items_used = []) ∧
    (s1Session.traits_completed Trait.neuroticism = false ∧
      (s1Session.trait_states Trait.neuroticism).items_used = []) ∧
    (s1Session.traits_completed Trait.openness = false ∧
      (s1Session.trait_states Trait.openness).items_used = []) ∧
    (s1Session.traits_completed Trait.honesty_humility = false ∧
      (s1Session.trait_states Trait.honesty_humility).items_used = []) := by
  have hall : ¬ ∀ t, initSession.traits_completed t = true := by decide
  have hnt : nextTraitOf initSession = Trait.extraversion := rfl
  refine ⟨?_, rfl, s1Session_completed_ext,
    s1Session_untouched _ (by decide), s1Session_untouched _ (by decide),
    s1Session_untouched _ (by decide), s1Session_untouched _ (by decide),
    s1Session_untouched _ (by decide)⟩
  rcases hsel : selectNextItem initSession (nextTraitOf initSession) with _ | m
  · exfalso
    rw [hnt] at hsel
    unfold selectNextItem at hsel
    rw [show availableItems initSession Trait.extraversion = [1, 7, 19, 23] from rfl] at hsel
    simp at hsel
  · refine ⟨m, ?_⟩
    rw [getNextAction, dif_neg hall, hsel, hnt]

/-- A directly constructible session state in which extraversion has all
four of its items administered but is not yet marked completed (reachable
e.g. when the algorithm is configured with max_items_per_trait above 4),
while the other five traits are completed. -/
noncomputable def c9State : DOSESessionState where
  trait_states := fun t =>
    { trait := t, theta_estimate := 0, standard_error := 1, posterior_mean := 0
      posterior_sd := 1
      responses := if t = Trait.extraversion then [(1, 4), (7, 4), (19, 4), (23, 4)] else []
      items_used := if t = Trait.extraversion then [1, 7, 19, 23] else []
      total_information := 0 }
  administered_items := []
  traits_completed := fun t => t != Trait.extraversion
  total_items := 20

/-- Claim C9 counterexample: get_next_action is not pure -- on c9State it
mutates the session, setting the extraversion completed flag from false to
true (the branch that marks a trait completed when it has no unadministered
items left and recurses). -/
theorem next_action_not_pure :
    ((getNextAction 0.65 4 c9State).2).traits_completed Trait.extraversion = true ∧
      c9State.traits_completed Trait.extraversion = false := by
  have hall : ¬ ∀ t, c9State.traits_completed t = true := by decide
  have hnt : nextTraitOf c9State = Trait.extraversion := rfl
  have hsel : selectNextItem c9State (nextTraitOf c9State) = none := rfl
  constructor
  · rw [getNextAction, dif_neg hall, hsel]
    have hall2 : ∀ t,
        (DOSESessionState.mk c9State.trait_states c9State.administered_items
          (Function.update c9State.traits_completed (nextTraitOf c9State) true)
          c9State.total_items).traits_completed t = true := by
      intro t
      simp only [Function.update_apply, hnt]
      rcases t <;> simp <;> rfl
    rw [getNextAction, dif_pos hall2]
    simp only [Function.update_apply, hnt]
    simp
  · rfl

/-- Claim C9 amended: get_next_action leaves the session state unchanged on
every state in which each incomplete trait still has at least one
unadministered item (every reachable state under the default
max_items_per_trait = 4 satisfies this, since a trait is completed as soon
as its fourth item is processed); its output is a pure function of the
state.  When an incomplete trait has exhausted its items, get_next_action
instead marks that trait completed in the state (the mutation exhibited by
the counterexample) -- so state mutation is not exclusive to
process_response. -/
theorem next_action_pure_on_nonexhausted (thr : ℝ) (maxI : ℕ) (s : DOSESessionState)
    (h : ∀ t, s.traits_completed t = false → availableItems s t ≠ []) :
    (getNextAction thr maxI s).2 = s := by
  rw [getNextAction]
  by_cases hall : ∀ t, s.traits_completed t = true
  · rw [dif_pos hall]
  · rw [dif_neg hall]
    rcases hsel : selectNextItem s (nextTraitOf s) with _ | m
    · exfalso
      have hne := h _ (nextTraitOf_incomplete hall)
      unfold selectNextItem at hsel
      rcases hav : availableItems s (nextTraitOf s) with _ | ⟨a, rest⟩
      · exact hne hav
      · rw [hav] at hsel
        simp at hsel
    · rfl

/-- Witness for the amended purity theorem at the fresh session. -/
theorem next_action_pure_on_nonexhausted_witness :
    (getNextAction 0.65 4 initSession).2 = initSession :=
  next_action_pure_on_nonexhausted 0.65 4 initSession (by decide)

lemma trait_items_sorted (t : Trait) : (TRAIT_ITEMS t).Pairwise (· < ·) := by
  cases t <;> decide

lemma availableItems_sorted (s : DOSESessionState) (t : Trait) :
    (availableItems s t).Pairwise (· < ·) :=
  (trait_items_sorted t).filter _

lemma foldl_max_spec (f : ℕ → ℝ) :
    ∀ (l : List ℕ) (a : ℕ),
      l.foldl (fun best n => if f best < f n then n else best) a ∈ a :: l ∧
      (∀ j ∈ a :: l, f j ≤ f (l.foldl (fun best n => if f best < f n then n else best) a)) ∧
      (l.foldl (fun best n => if f best < f n then n else best) a = a ∨
        f a < f (l.foldl (fun best n => if f best < f n then n else best) a)) := by
  intro l
  induction l with
  | nil =>
      intro a
      refine ⟨by simp, ?_, Or.inl rfl⟩
      intro j hj
      simp at hj
      subst hj
      simp
  | cons b l ih =>
      intro a
      have step : (b :: l).foldl (fun best n => if f best < f n then n else best) a =
          l.foldl (fun best n => if f best < f n then n else best)
            (if f a < f b then b else a) := rfl
      rw [step]
      obtain ⟨hmem, hmax, hstrict⟩ := ih (if f a < f b then b else a)
      set c := if f a < f b then b else a with hc
      have hc_mem : c = a ∨ c = b := by
        rw [hc]; split
        · exact Or.inr rfl
        · exact Or.inl rfl
      have hfa_le : f a ≤ f c := by
        rw [hc]; split
        · next hab => exact le_of_lt hab
        · exact le_rfl
      have hfb_le : f b ≤ f c := by
        rw [hc]; split
        · exact le_rfl
        · next hab => exact le_of_not_lt hab
      refine ⟨?_, ?_, ?_⟩
      · rcases List.mem_cons.mp hmem with h1 | h1
        · rw [h1]
          rcases hc_mem with h2 | h2 <;> rw [h2] <;> simp
        · simp [h1]
      · intro j hj
        rcases List.mem_cons.mp hj with h1 | h1
        · subst h1
          exact le_trans hfa_le (hmax c (List.mem_cons_self _ _))
        rcases List.mem_cons.mp h1 with h2 | h2
        · subst h2
          exact le_trans hfb_le (hmax c (List.mem_cons_self _ _))
        · exact hmax j (List.mem_cons_of_mem _ h2)
      · rcases hstrict with h1 | h1
        · by_cases hab : f a < f b
          · right
            rw [h1, hc, if_pos hab]
            exact hab
          · left
            rw [h1, hc, if_neg hab]
        · right
          exact lt_of_le_of_lt hfa_le h1

lemma foldl_max_first_min (f : ℕ → ℝ) :
    ∀ (l : List ℕ) (a : ℕ), (a :: l).Pairwise (· < ·) →
      ∀ j ∈ a :: l,
        f j = f (l.foldl (fun best n => if f best < f n then n else best) a) →
          l.foldl (fun best n => if f best < f n then n else best) a ≤ j := by
  intro l
  induction l with
  | nil =>
      intro a _ j hj heq
      simp at hj
      subst hj
      simp
  | cons b l ih =>
      intro a hpw j hj heq
      have step : (b :: l).foldl (fun best n => if f best < f n then n else best) a =
          l.foldl (fun best n => if f best < f n then n else best)
            (if f a < f b then b else a) := rfl
      rw [step] at heq ⊢
      set c := if f a < f b then b else a with hc
      obtain ⟨hmem, hmax, hstrict⟩ := foldl_max_spec f l c
      obtain ⟨hhead, htail⟩ := List.pairwise_cons.mp hpw
      obtain ⟨hhead2, htail2⟩ := List.pairwise_cons.mp htail
      have hfa_le : f a ≤ f c := by
        rw [hc]; split
        · next hab => exact le_of_lt hab
        · exact le_rfl
      have hfb_le : f b ≤ f c := by
        rw [hc]; split
        · exact le_rfl
        · next hab => exact le_of_not_lt hab
      have hpwc : (c :: l).Pairwise (· < ·) := by
        rw [hc]; split
        · exact List.pairwise_cons.mpr ⟨hhead2, htail2⟩
        · exact List.pairwise_cons.mpr
            ⟨fun x hx => hhead x (List.mem_cons_of_mem _ hx), htail2⟩
      rcases List.mem_cons.mp hj with h1 | h1
      · subst h1
        rcases hstrict with hres | hres
        · rw [hres] at heq ⊢
          by_cases hab : f j < f b
          · exfalso
            rw [hc, if_pos hab] at heq
            exact absurd heq (ne_of_lt hab)
          · rw [hc, if_neg hab]
        · exfalso
          rw [← heq] at hres
          linarith
      rcases List.mem_cons.mp h1 with h2 | h2
      · subst h2
        rcases hstrict with hres | hres
        · rw [hres] at heq ⊢
          by_cases hab : f a < f j
          · rw [hc, if_pos hab]
          · rw [hc, if_neg hab]
            exact le_of_lt (hhead j (List.mem_cons_self _ _))
        · exfalso
          rw [← heq] at hres
          linarith
      · exact ih c hpwc j (List.mem_cons_of_mem _ h2) heq

/-- Claim C3 -- next-action selection: whenever some trait is incomplete,
get_next_action presents an item for the round-robin trait nextTraitOf s
(the trait at index total_items mod the number of incomplete traits, in the
canonical ordering); the returned item belongs to that trait's
unadministered items, maximizes Fisher information at the trait's current
theta estimate (which update_trait_state always keeps equal to the
posterior mean), and among equally informative items it is the smallest
item id; the selection is a pure function of the state, hence of the
history. -/
theorem next_action_selection (thr : ℝ) (maxI : ℕ) (s : DOSESessionState)
    (h : ¬ ∀ t, s.traits_completed t = true)
    (hav : availableItems s (nextTraitOf s) ≠ []) :
    (∃ m : ℕ,
      getNextAction thr maxI s = (DOSEActionResult.presentItem m (nextTraitOf s), s) ∧
      m ∈ availableItems s (nextTraitOf s) ∧
      (∀ j ∈ availableItems s (nextTraitOf s),
        itemFisherInformation j (s.trait_states (nextTraitOf s)).theta_estimate ≤
          itemFisherInformation m (s.trait_states (nextTraitOf s)).theta_estimate) ∧
      (∀ j ∈ availableItems s (nextTraitOf s),
        itemFisherInformation j (s.trait_states (nextTraitOf s)).theta_estimate =
          itemFisherInformation m (s.trait_states (nextTraitOf s)).theta_estimate → m ≤ j)) ∧
    (∀ (ts : TraitState) (n : ℕ) (r : ℤ),
      (updateTraitState ts n r).theta_estimate = (updateTraitState ts n r).posterior_mean) := by
  refine ⟨?_, fun ts n r => rfl⟩
  rcases hav_eq : availableItems s (nextTraitOf s) with _ | ⟨a, rest⟩
  · exact absurd hav_eq hav
  · have hsel : selectNextItem s (nextTraitOf s) =
        some (rest.foldl
          (fun best n =>
            if itemFisherInformation best (s.trait_states (nextTraitOf s)).theta_estimate <
                itemFisherInformation n (s.trait_states (nextTraitOf s)).theta_estimate
            then n else best) a) := by
      simp only [selectNextItem]
      rw [hav_eq]
    have hsorted : (a :: rest).Pairwise (· < ·) := by
      rw [← hav_eq]
      exact availableItems_sorted s (nextTraitOf s)
    obtain ⟨hmem, hmax, _⟩ :=
      foldl_max_spec
        (fun n => itemFisherInformation n (s.trait_states (nextTraitOf s)).theta_estimate) rest a
    refine ⟨rest.foldl
        (fun best n =>
          if itemFisherInformation best (s.trait_states (nextTraitOf s)).theta_estimate <
              itemFisherInformation n (s.trait_states (nextTraitOf s)).theta_estimate
          then n else best) a, ?_, ?_, ?_, ?_⟩
    · rw [getNextAction, dif_neg h, hsel]
    · exact hmem
    · intro j hj
      exact hmax j hj
    · intro j hj heq
      exact foldl_max_first_min
        (fun n => itemFisherInformation n (s.trait_states (nextTraitOf s)).theta_estimate)
        rest a hsorted j hj heq

/-- Witness for the next-action selection theorem: its hypotheses hold at
the fresh session, and update_trait_state keeps theta_estimate equal to the
posterior mean there. -/
theorem next_action_selection_witness :
    (updateTraitState (initSession.trait_states Trait.extraversion) 1 4).theta_estimate =
      (updateTraitState (initSession.trait_states Trait.extraversion) 1 4).posterior_mean :=
  (next_action_selection 0.65 4 initSession (by decide) (by decide)).2
    (initSession.trait_states Trait.extraversion) 1 4

lemma length_filterMap_eq_length_filter {α β : Type} (f : α → Option β) (l : List α) :
    (l.filterMap f).length = (l.filter (fun a => (f a).isSome)).length := by
  induction l with
  | nil => rfl
  | cons a l ih =>
      rcases hf : f a with _ | b <;> simp [List.filterMap_cons, List.filter_cons, hf, ih]

lemma calculateTraitScore_snd (responses : List (ℕ × ℤ)) (t : Trait) :
    (calculateTraitScore responses t).2 =
      ((TRAIT_ITEMS t).filterMap
        (fun n => (responses.lookup n).map (fun r => scoreResponse n r))).length := by
  simp only [calculateTraitScore]
  split
  · next hemp =>
      rw [List.isEmpty_iff] at hemp
      rw [hemp]
      rfl
  · rfl

/-- Claim C10 counterexample: on the empty response map (missing all 24
item ids) the classical scorer does not fail -- calculate_trait_score
returns the value (0.0, 0) and calculate_all_trait_scores returns a
per-trait score entry with score 0, zero items and complete = false, rather
than signalling an IncompleteSurvey error. -/
theorem incomplete_survey_no_error :
    calculateTraitScore [] Trait.extraversion = (0, 0) ∧
      calculateAllTraitScores [] Trait.extraversion =
        { score := 0, num_items := 0, complete := false } := by
  constructor <;> rfl

/-- Claim C10 amended: the classical scorer itself never signals an error.
For every response map it returns, for every trait, a score entry whose
num_items counts exactly the trait's items present in the map (at most 4)
and whose complete flag holds precisely when all four are present; partial
maps yield partial averages (score 0 when no item is present).  Validation
of completeness is a separate function (validate_complete_responses) used
by the HTTP layer, which reports missing items as data instead of raising
inside the scorer. -/
theorem classical_scorer_total (responses : List (ℕ × ℤ)) (t : Trait) :
    (calculateAllTraitScores responses t).num_items =
      ((TRAIT_ITEMS t).filter (fun n => (responses.lookup n).isSome)).length ∧
    (calculateAllTraitScores responses t).num_items ≤ 4 ∧
    ((calculateAllTraitScores responses t).complete = true ↔
      (calculateAllTraitScores responses t).num_items = 4) := by
  have hnum : (calculateAllTraitScores responses t).num_items =
      ((TRAIT_ITEMS t).filter (fun n => (responses.lookup n).isSome)).length := by
    show (calculateTraitScore responses t).2 = _
    rw [calculateTraitScore_snd, length_filterMap_eq_length_filter]
    congr 1
    apply List.filter_congr
    intro n _
    rcases responses.lookup n with _ | r <;> rfl
  refine ⟨hnum, ?_, ?_⟩
  · rw [hnum]
    calc ((TRAIT_ITEMS t).filter (fun n => (responses.lookup n).isSome)).length
        ≤ (TRAIT_ITEMS t).length := List.length_filter_le _ _
      _ ≤ 4 := by cases t <;> simp [TRAIT_ITEMS]
  · show ((calculateTraitScore responses t).2 == 4) = true ↔ _
    simp [calculateAllTraitScores]

/-- Witness for the category-probability theorem at concrete strictly
increasing thresholds. -/
theorem category_probabilities_witness :
    ∑ k : Fin 7, categoryProb 0 1 [0, 1, 2, 3, 4, 5] k = 1 :=
  (category_probabilities_clipped_normalized 0 1 0 1 2 3 4 5 (by norm_num) (by norm_num)
    (by norm_num) (by norm_num) (by norm_num)).2.1
